import Mathlib

/-!
# FIR filter character driver and its reference client

A shallow embedding of `src/Driver/fir_driver.c` (the kernel module) and of
the write side of `src/Application/fir_application.c` (the user-space
client), followed by the properties established about them.

Conventions of the embedding.

* Bytes are natural numbers (character codes); a C string is the list of the
  bytes that precede its first NUL.
* `unsigned long fir_curr_addr` is a natural number reduced modulo
  `2 ^ bits`, where `bits` is the width of `unsigned long` on the target
  (a parameter: 32 on arm, 64 on arm64).
* The mapped region behind `fir_base_addr` is an abstract device `IoDev`:
  the driver only ever reaches it through `ioread32` / `iowrite32`, at the
  byte offset `fir_curr_addr` from `fir_base_addr` (the base is a
  `void __iomem *`, so the addition is not scaled).
* `ssize_t` results are integers; `-EINVAL` is `-22`.
* The client reaches the driver through `write` and `read` calls. Each
  `fprintf` followed by `fflush` is one `write` of the formatted text. The
  `fscanf` calls go through the C library's buffered stream, and how many
  `read` calls one `fscanf` issues is decided by that library, not by the
  source; reads are therefore counted as `read` calls on the device.
-/

namespace Fir

/-! ## Constants (fir_driver.c, lines 26-33) -/

/-- Success code `OK`. -/
def OK : Int := 0

/-- Kernel error number `EINVAL`. -/
def EINVAL : Int := 22

/-- Kernel error number `ERANGE`. -/
def ERANGE : Int := 34

/-- Size of the on-stack text buffers `input` and `output`. -/
def BUFFSIZE : Nat := 64

/-- Highest cursor value the write path allows. -/
def DRVMEMSIZE : Nat := 256

/-! ## Integer conversions -/

/-- Conversion of an `int` to the `u32` handed to `iowrite32`. -/
def to_u32 (v : Int) : Nat := (v % 2 ^ 32).toNat

/-- Conversion of the `u32` returned by `ioread32` to `int val`. -/
def to_int (r : Nat) : Int :=
  if r % 2 ^ 32 < 2 ^ 31 then ((r % 2 ^ 32 : Nat) : Int) else ((r % 2 ^ 32 : Nat) : Int) - 2 ^ 32

/-- Reinterpretation of an `unsigned long long` as `long long`. -/
def to_s64 (r : Nat) : Int :=
  if r % 2 ^ 64 < 2 ^ 63 then ((r % 2 ^ 64 : Nat) : Int) else ((r % 2 ^ 64 : Nat) : Int) - 2 ^ 64

/-! ## Kernel text routines used by the driver

`kstrtoint` and `scnprintf` belong to the Linux kernel library, not to this
repository; they are modelled here for base 10 and for the `"%d"` format,
the only uses the driver makes of them.
-/

/-- State of the digit loop of `_parse_integer`. -/
structure Parsed where
  /-- Accumulated value, an `unsigned long long`. -/
  res : Nat
  /-- Number of characters consumed. -/
  rv : Nat
  /-- The sticky `KSTRTOX_OVERFLOW` flag. -/
  ov : Bool
  /-- The characters not consumed. -/
  rest : List Nat
deriving DecidableEq, Repr

/-- Modelled from the spec: the digit loop `_parse_integer` of the kernel's
`lib/kstrtox.c`, absent from src/, for base 10 ("parse `text` as a base-10
signed integer"): it consumes decimal digits, accumulates them in 64 bits and
raises the overflow flag when the accumulator would exceed `ULLONG_MAX`. -/
def _parse_integer : List Nat → Nat → Nat → Bool → Parsed
  | [], res, rv, ov => ⟨res, rv, ov, []⟩
  | c :: s, res, rv, ov =>
    if 48 ≤ c ∧ c ≤ 57 then
      let val := c - 48
      let ov := ov || (decide (2 ^ 60 ≤ res) && decide ((2 ^ 64 - 1 - val) / 10 < res))
      _parse_integer s ((res * 10 + val) % 2 ^ 64) (rv + 1) ov
    else ⟨res, rv, ov, c :: s⟩

/-- Modelled from the spec: `_kstrtoull` of `lib/kstrtox.c`, absent from src/,
for base 10: at least one digit, an optional single trailing newline, nothing
else; `-ERANGE` on overflow and `-EINVAL` on any other malformed text. -/
def _kstrtoull (s : List Nat) : Except Int Nat :=
  let p := _parse_integer s 0 0 false
  if p.ov then .error (-ERANGE)
  else if p.rv = 0 then .error (-EINVAL)
  else
    match p.rest with
    | [] => .ok p.res
    | [10] => .ok p.res
    | _ => .error (-EINVAL)

/-- Modelled from the spec: `kstrtoull` of `lib/kstrtox.c`, absent from src/:
an optional leading `+`, then `_kstrtoull`. -/
def kstrtoull (s : List Nat) : Except Int Nat :=
  match s with
  | 43 :: t => _kstrtoull t
  | _ => _kstrtoull s

/-- Modelled from the spec: `kstrtoll` of `lib/kstrtox.c`, absent from src/:
an optional leading `-`, and the magnitude must fit a `long long`. -/
def kstrtoll (s : List Nat) : Except Int Int :=
  match s with
  | 45 :: t =>
    match _kstrtoull t with
    | .error e => .error e
    | .ok tmp =>
      if 0 < to_s64 ((2 ^ 64 - tmp) % 2 ^ 64) then .error (-ERANGE)
      else .ok (to_s64 ((2 ^ 64 - tmp) % 2 ^ 64))
  | _ =>
    match kstrtoull s with
    | .error e => .error e
    | .ok tmp => if to_s64 tmp < 0 then .error (-ERANGE) else .ok (to_s64 tmp)

/-- Modelled from the spec: `kstrtoint(s, 10, &val)` of `lib/kstrtox.c`,
absent from src/: `kstrtoll`, then the value must fit an `int`. -/
def kstrtoint (s : List Nat) : Except Int Int :=
  match kstrtoll s with
  | .error e => .error e
  | .ok tmp => if tmp ≠ to_int (tmp % 2 ^ 32).toNat then .error (-ERANGE) else .ok tmp

/-- Modelled from the spec: the digit generator behind the `"%d"` conversion,
absent from src/: the decimal digits of `n`, most significant first, as
character codes; `fuel` bounds the number of digits produced. -/
def put_dec : Nat → Nat → List Nat
  | 0, _ => []
  | fuel + 1, n => if n < 10 then [48 + n] else put_dec fuel (n / 10) ++ [48 + n % 10]

/-- Modelled from the spec: the text the `"%d"` conversion of the kernel's
`vsnprintf` produces, absent from src/ ("format `value` as decimal text"):
a `-` for a negative value, then the decimal digits of the magnitude.
Twenty digits cover every 64-bit magnitude. -/
def format_d (val : Int) : List Nat :=
  if val < 0 then 45 :: put_dec 20 (-val).toNat else put_dec 20 val.toNat

/-- Modelled from the spec: `scnprintf(output, size, "%d", val)`, absent from
src/: the text is cut to `size - 1` characters, and the number of characters
actually stored (terminator excluded) is returned. -/
def scnprintf (size : Nat) (val : Int) : List Nat × Nat :=
  let output := (format_d val).take (size - 1)
  (output, output.length)

/-- C string held in a byte array: the bytes before the first NUL. -/
def cstring (a : List Nat) : List Nat := a.takeWhile (fun c => c ≠ 0)

/-- Length function `strlen` on a byte array. -/
def strlen (a : List Nat) : Nat := (cstring a).length

/-! ## User-space copies -/

/-- Modelled from the spec: the kernel primitive `copy_from_user(input, buf,
len)`, absent from src/. The result is the number of bytes that could not be
copied, where `buf` lists the bytes readable at the user pointer. -/
def copy_from_user (buf : List Nat) (len : Nat) : Nat := len - min len buf.length

/-- Modelled from the spec: the kernel primitive `copy_to_user(buf, output,
n)`, absent from src/ ("`CopyFailed` if transferring the formatted text to the
caller's buffer fails"). The result is the number of bytes that could not be
copied, where `writable` is the number of bytes writable at the user
pointer. -/
def copy_to_user (writable : Nat) (n : Nat) : Nat := n - min n writable

/-! ## The mapped register region -/

/-- Access primitives of the region mapped at `fir_base_addr`; addresses are
byte offsets from `fir_base_addr`, values are 32-bit words. -/
structure IoDev (σ : Type) where
  /-- Word returned by `ioread32(fir_base_addr + off)` and the region after
  the access. -/
  ioread32 : σ → Nat → Nat × σ
  /-- Region after `iowrite32(val, fir_base_addr + off)`. -/
  iowrite32 : σ → Nat → Nat → σ

/-- Driver globals that the file operations use. -/
structure Driver (σ : Type) where
  /-- Cursor `fir_curr_addr`. -/
  fir_curr_addr : Nat
  /-- Region mapped at `fir_base_addr`. -/
  regs : σ

/-- Outcome of `fir_read`. -/
structure ReadResult (σ : Type) where
  /-- Returned `ssize_t`. -/
  ret : Int
  /-- Bytes stored in the user buffer, when the copy took place. -/
  user : Option (List Nat)
  /-- Driver globals afterwards. -/
  st : Driver σ

/-- Outcome of `fir_write`. -/
structure WriteResult (σ : Type) where
  /-- Returned `ssize_t`. -/
  ret : Int
  /-- Driver globals afterwards. -/
  st : Driver σ

/-! ## File operations (fir_driver.c, lines 92-155) -/

/-- Read operation `fir_read` (lines 92-120): one word is loaded at the
cursor, formatted with `"%d"`, copied out with its terminator; then the
cursor is reset to 0 when it was `DRVMEMSIZE` and the word was 1, and
incremented otherwise. -/
def fir_read {σ : Type} (d : IoDev σ) (bits : Nat) (s : Driver σ) (writable : Nat) :
    ReadResult σ :=
  let r := d.ioread32 s.regs s.fir_curr_addr
  let val := to_int r.1
  let p := scnprintf BUFFSIZE val
  let output := p.1 ++ [0]
  if p.2 = 0 then ⟨-EINVAL, none, ⟨s.fir_curr_addr, r.2⟩⟩
  else if copy_to_user writable (strlen output + 1) ≠ 0 then
    ⟨-EINVAL, none, ⟨s.fir_curr_addr, r.2⟩⟩
  else if s.fir_curr_addr = DRVMEMSIZE ∧ val = 1 then
    ⟨(strlen output : Nat), some output, ⟨0, r.2⟩⟩
  else
    ⟨(strlen output : Nat), some output, ⟨(s.fir_curr_addr + 1) % 2 ^ bits, r.2⟩⟩

/-- Lines 129-139 of `fir_write`: the length check, the copy from user space
and the terminator. The result is the length after the check and the bytes
stored from `input[0]` on: `len` copied bytes followed by the NUL stored at
`input[len]`. -/
def fir_write_input (buf : List Nat) (len : Nat) : Except Int (Nat × List Nat) :=
  let len := if len > BUFFSIZE then BUFFSIZE - 1 else len
  if copy_from_user buf len ≠ 0 then .error (-EINVAL)
  else .ok (len, buf.take len ++ [0])

/-- Write operation `fir_write` (lines 122-155): the user text is copied and
terminated, parsed with `kstrtoint`, the value is stored at the cursor, and
the cursor is incremented and clamped to `DRVMEMSIZE`. -/
def fir_write {σ : Type} (d : IoDev σ) (bits : Nat) (s : Driver σ) (buf : List Nat)
    (len : Nat) : WriteResult σ :=
  match fir_write_input buf len with
  | .error e => ⟨e, s⟩
  | .ok (len, input) =>
    match kstrtoint (cstring input) with
    | .error _ => ⟨-EINVAL, s⟩
    | .ok val =>
      let regs := d.iowrite32 s.regs (to_u32 val) s.fir_curr_addr
      let cur := (s.fir_curr_addr + 1) % 2 ^ bits
      if cur > DRVMEMSIZE then ⟨(len : Nat), ⟨DRVMEMSIZE, regs⟩⟩
      else ⟨(len : Nat), ⟨cur, regs⟩⟩

/-- Successful path of `fir_probe` (line 188): the cursor starts at 0 over
the freshly mapped region. -/
def fir_probe {σ : Type} (regs : σ) : Driver σ := ⟨0, regs⟩

/-! ## A scripted register region that records every access -/

/-- One register access: the byte offset from `fir_base_addr` and the 32-bit
word transferred. -/
inductive Access where
  /-- An `ioread32` at `off` that returned `val`. -/
  | load (off : Nat) (val : Nat)
  /-- An `iowrite32` of `val` at `off`. -/
  | store (off : Nat) (val : Nat)
deriving DecidableEq, Repr

/-- Offset of an access. -/
def Access.off : Access → Nat
  | .load o _ => o
  | .store o _ => o

/-- Hardware stand-in: `script` lists the words the device will return to the
coming loads (0 once the list is exhausted), `log` the accesses made so far,
oldest first. -/
structure Stub where
  /-- Words still to be returned. -/
  script : List Nat
  /-- Accesses performed. -/
  log : List Access
deriving DecidableEq, Repr

/-- Access primitives of the scripted region. -/
def stub : IoDev Stub where
  ioread32 := fun r off =>
    (r.script.headD 0 % 2 ^ 32, ⟨r.script.tail, r.log ++ [.load off (r.script.headD 0 % 2 ^ 32)]⟩)
  iowrite32 := fun r val off => ⟨r.script, r.log ++ [.store off val]⟩

/-! ## Byte-addressed little-endian memory behind the region -/

/-- Access primitives over a byte-addressed little-endian memory: a 32-bit
access at offset `a` touches the bytes `a .. a+3`. -/
def ram : IoDev (Nat → Nat) where
  ioread32 := fun m a =>
    (m a % 256 + 256 * (m (a + 1) % 256) + 65536 * (m (a + 2) % 256)
      + 16777216 * (m (a + 3) % 256), m)
  iowrite32 := fun m val a => fun x =>
    if x = a then val % 256
    else if x = a + 1 then val / 256 % 256
    else if x = a + 2 then val / 65536 % 256
    else if x = a + 3 then val / 16777216 % 256
    else m x

/-! ## Sequences of calls -/

/-- One system call on the device node. -/
inductive Call where
  /-- A `read` whose user buffer has `writable` writable bytes. -/
  | read (writable : Nat)
  /-- A `write` of `len` bytes from a user buffer holding `buf`. -/
  | write (buf : List Nat) (len : Nat)
deriving DecidableEq, Repr

/-- Driver globals after one call, with the returned `ssize_t`. -/
def step {σ : Type} (d : IoDev σ) (bits : Nat) (s : Driver σ) : Call → Int × Driver σ
  | .read writable => ((fir_read d bits s writable).ret, (fir_read d bits s writable).st)
  | .write buf len => ((fir_write d bits s buf len).ret, (fir_write d bits s buf len).st)

/-- Driver globals after a sequence of calls, with the returned values in
call order. -/
def run {σ : Type} (d : IoDev σ) (bits : Nat) (s : Driver σ) : List Call → List Int × Driver σ
  | [] => ([], s)
  | c :: cs =>
    (((step d bits s c).1 :: (run d bits (step d bits s c).2 cs).1),
      (run d bits (step d bits s c).2 cs).2)

/-! ## The write side of the reference client (fir_application.c) -/

/-- Number of samples the client writes and reads. -/
def NUM_SAMPLES : Nat := 256

/-- Sawtooth sample computed by the first loop of `main` (lines 22-25). -/
def sample (i : Nat) : Int :=
  let val : Int := ((i % 38 * 16 / 19 + i % 5 : Nat) : Int)
  if i % 38 ≥ 19 then 37 - val else val

/-- The call made by `fprintf(device, "%d", val); fflush(device);`: one
`write` of the decimal text of `val`, without terminator. -/
def fprintf_d (val : Int) : Call := .write (format_d val) (format_d val).length

/-- The calls of the input loop of `main` followed by the start write
(lines 21-33). -/
def main_writes : List Call :=
  (List.range NUM_SAMPLES).map (fun i => fprintf_d (sample i)) ++ [fprintf_d 1]

/-! ## Auxiliary notions used in the statements -/

/-- Value of a digit string read left to right from the accumulator `res`. -/
def digits_value (res : Nat) (ds : List Nat) : Nat :=
  ds.foldl (fun r c => r * 10 + (c - 48)) res

/-- Length `fir_write` works with after its check of lines 129-132. -/
def write_len (len : Nat) : Nat := if len > BUFFSIZE then BUFFSIZE - 1 else len

/-- Value a `write(buf, len)` call hands to `iowrite32`: `none` when the call
returns before the store (failed copy or rejected text). -/
def write_value (buf : List Nat) (len : Nat) : Option Int :=
  match fir_write_input buf len with
  | .error _ => none
  | .ok (_, input) =>
    match kstrtoint (cstring input) with
    | .error _ => none
    | .ok val => some val

/-- Cursor `fir_write` leaves behind when it started at `c` (lines 148-152). -/
def write_cursor (bits c : Nat) : Nat :=
  if (c + 1) % 2 ^ bits > DRVMEMSIZE then DRVMEMSIZE else (c + 1) % 2 ^ bits

/-- Cursor `fir_read` leaves behind when it started at `c` and loaded the
value `val` (lines 113-117). -/
def read_cursor (bits c : Nat) (val : Int) : Nat :=
  if c = DRVMEMSIZE ∧ val = 1 then 0 else (c + 1) % 2 ^ bits

/-! ## Facts about the text routines -/

theorem digits_value_ge (ds : List Nat) (res : Nat) : res ≤ digits_value res ds := by
  induction ds generalizing res with
  | nil => simp [digits_value]
  | cons c cs ih =>
    have h := ih (res * 10 + (c - 48))
    simp only [digits_value, List.foldl_cons] at h ⊢
    omega

theorem digits_value_append (a : List Nat) (c res : Nat) :
    digits_value res (a ++ [c]) = digits_value res a * 10 + (c - 48) := by
  simp [digits_value, List.foldl_append]

theorem parse_integer_digits (ds : List Nat) (res rv : Nat) (ov : Bool)
    (hd : ∀ c ∈ ds, 48 ≤ c ∧ c ≤ 57) (hv : digits_value res ds < 2 ^ 60) :
    _parse_integer ds res rv ov = ⟨digits_value res ds, rv + ds.length, ov, []⟩ := by
  induction ds generalizing res rv ov with
  | nil => simp [_parse_integer, digits_value]
  | cons c cs ih =>
    have hc := hd c (List.mem_cons_self c cs)
    have hcs : ∀ x ∈ cs, 48 ≤ x ∧ x ≤ 57 := fun x hx => hd x (List.mem_cons_of_mem c hx)
    have hstep : digits_value res (c :: cs) = digits_value (res * 10 + (c - 48)) cs := by
      simp [digits_value]
    have hge := digits_value_ge cs (res * 10 + (c - 48))
    rw [hstep] at hv
    have hres : res < 2 ^ 60 := by omega
    have hmod : (res * 10 + (c - 48)) % 2 ^ 64 = res * 10 + (c - 48) :=
      Nat.mod_eq_of_lt (by omega)
    have hnot : ¬ (2 ^ 60 ≤ res) := by omega
    rw [_parse_integer, if_pos hc]
    simp only [hmod, hnot, decide_False, Bool.false_and, Bool.or_false]
    rw [ih (res * 10 + (c - 48)) (rv + 1) ov hcs hv, hstep]
    simp only [List.length_cons]
    congr 1
    omega

theorem put_dec_digit (fuel n : Nat) : ∀ c ∈ put_dec fuel n, 48 ≤ c ∧ c ≤ 57 := by
  induction fuel generalizing n with
  | zero => simp [put_dec]
  | succ f ih =>
    intro c hc
    rw [put_dec] at hc
    split at hc
    · simp only [List.mem_singleton] at hc
      omega
    · rw [List.mem_append] at hc
      rcases hc with hc | hc
      · exact ih _ c hc
      · simp only [List.mem_singleton] at hc
        omega

theorem put_dec_ne_nil (fuel n : Nat) : put_dec (fuel + 1) n ≠ [] := by
  rw [put_dec]
  split <;> simp

theorem put_dec_length (fuel k n : Nat) (hk : 0 < k) (hn : n < 10 ^ k) :
    (put_dec fuel n).length ≤ k := by
  induction fuel generalizing k n with
  | zero => simp [put_dec]
  | succ f ih =>
    rw [put_dec]
    split
    · simp only [List.length_singleton]
      omega
    · rename_i h10
      obtain ⟨j, rfl⟩ : ∃ j, k = j + 1 := ⟨k - 1, by omega⟩
      have hj : 0 < j := by
        rcases Nat.eq_zero_or_pos j with h0 | h0
        · subst h0
          simp at hn
          omega
        · exact h0
      have hdiv : n / 10 < 10 ^ j := by
        rw [Nat.div_lt_iff_lt_mul (by norm_num)]
        rw [pow_succ] at hn
        exact hn
      have := ih j (n / 10) hj hdiv
      simp only [List.length_append, List.length_singleton]
      omega

theorem put_dec_value (fuel n : Nat) (hn : n < 10 ^ fuel) :
    digits_value 0 (put_dec fuel n) = n := by
  induction fuel generalizing n with
  | zero =>
    simp at hn
    subst hn
    simp [put_dec, digits_value]
  | succ f ih =>
    rw [put_dec]
    split
    · simp [digits_value]
    · have hdiv : n / 10 < 10 ^ f := by
        rw [Nat.div_lt_iff_lt_mul (by norm_num)]
        rw [pow_succ] at hn
        exact hn
      rw [digits_value_append, ih (n / 10) hdiv]
      omega

theorem kstrtoull_put_dec (m : Nat) (hm : m < 2 ^ 32) :
    _kstrtoull (put_dec 20 m) = .ok m := by
  have hval : digits_value 0 (put_dec 20 m) = m :=
    put_dec_value 20 m (lt_of_lt_of_le hm (by norm_num))
  have hp := parse_integer_digits (put_dec 20 m) 0 0 false (put_dec_digit 20 m)
    (by rw [hval]; exact lt_of_lt_of_le hm (by norm_num))
  have hlen : (put_dec 20 m).length ≠ 0 := by
    intro h
    exact put_dec_ne_nil 19 m (List.length_eq_zero.mp h)
  simp only [_kstrtoull, hp, hval, Nat.zero_add, hlen]
  simp

theorem put_dec_head (m : Nat) :
    ∃ c t, put_dec 20 m = c :: t ∧ 48 ≤ c ∧ c ≤ 57 := by
  have hne := put_dec_ne_nil 19 m
  have hd := put_dec_digit 20 m
  cases h : put_dec 20 m with
  | nil => exact absurd h hne
  | cons c t =>
    rw [h] at hd
    exact ⟨c, t, rfl, hd c (List.mem_cons_self c t)⟩

theorem to_s64_small (m : Nat) (hm : m < 2 ^ 63) : to_s64 m = (m : Int) := by
  have h : m % 2 ^ 64 = m := Nat.mod_eq_of_lt (by omega)
  simp only [to_s64, h]
  rw [if_pos hm]

theorem to_s64_neg (m : Nat) (hm : m ≤ 2 ^ 63) :
    to_s64 ((2 ^ 64 - m) % 2 ^ 64) = -(m : Int) := by
  rcases Nat.eq_zero_or_pos m with h0 | h0
  · subst h0
    simp [to_s64]
  · have h1 : (2 ^ 64 - m) % 2 ^ 64 = 2 ^ 64 - m := Nat.mod_eq_of_lt (by omega)
    simp only [to_s64, h1]
    rw [if_neg (by omega)]
    omega

theorem to_int_of_int (v : Int) (hlo : -2 ^ 31 ≤ v) (hhi : v < 2 ^ 31) :
    to_int (v % 2 ^ 32).toNat = v := by
  unfold to_int
  have h1 : ((v % 2 ^ 32).toNat % 2 ^ 32 : Nat) = (v % 2 ^ 32).toNat := by
    apply Nat.mod_eq_of_lt
    omega
  rw [h1]
  split <;> omega

/-- The parser applied to the formatter's output gives the value back. -/
theorem kstrtoint_format_d (v : Int) (hlo : -2 ^ 31 ≤ v) (hhi : v < 2 ^ 31) :
    kstrtoint (format_d v) = .ok v := by
  have hint : v = to_int (v % 4294967296).toNat := by
    have h := to_int_of_int v hlo hhi
    norm_num at h
    exact h.symm
  by_cases hneg : v < 0
  · have hm : (-v).toNat < 2 ^ 32 := by omega
    have hk := kstrtoull_put_dec (-v).toNat hm
    have hs := to_s64_neg (-v).toNat (by omega)
    have hv : -(((-v).toNat : Nat) : Int) = v := by omega
    simp only [format_d, if_pos hneg, kstrtoint, kstrtoll, hk, hs, hv]
    rw [if_neg (by omega)]
    simp only [ne_eq, ite_not]
    norm_num
    exact fun h => absurd hint h
  · have hm : v.toNat < 2 ^ 32 := by omega
    have hk := kstrtoull_put_dec v.toNat hm
    have hs := to_s64_small v.toNat (by omega)
    have hv : ((v.toNat : Nat) : Int) = v := by omega
    obtain ⟨c, t, hct, hc1, hc2⟩ := put_dec_head v.toNat
    have hll : kstrtoll (put_dec 20 v.toNat) = .ok v := by
      have hull : kstrtoull (c :: t) = _kstrtoull (c :: t) := by
        unfold kstrtoull
        split
        · rename_i heq
          simp only [List.cons.injEq] at heq
          omega
        · rfl
      rw [hct] at hk ⊢
      unfold kstrtoll
      split
      · rename_i heq
        simp only [List.cons.injEq] at heq
        omega
      · rw [hull, hk]
        simp only [hs, hv]
        rw [if_neg (by omega)]
    simp only [format_d, if_neg hneg, kstrtoint, hll]
    simp only [ne_eq, ite_not]
    norm_num
    exact fun h => absurd hint h

theorem format_d_length (v : Int) (hlo : -2 ^ 31 ≤ v) (hhi : v < 2 ^ 31) :
    1 ≤ (format_d v).length ∧ (format_d v).length ≤ 11 := by
  unfold format_d
  split
  · have := put_dec_length 20 10 (-v).toNat (by norm_num)
      (lt_of_lt_of_le (show (-v).toNat < 2 ^ 32 by omega) (by norm_num))
    simp only [List.length_cons]
    omega
  · have := put_dec_length 20 10 v.toNat (by norm_num)
      (lt_of_lt_of_le (show v.toNat < 2 ^ 32 by omega) (by norm_num))
    have hne := put_dec_ne_nil 19 v.toNat
    have hpos : 0 < (put_dec 20 v.toNat).length := List.length_pos.mpr hne
    omega

theorem format_d_nonzero (v : Int) : ∀ c ∈ format_d v, c ≠ 0 := by
  intro c hc
  unfold format_d at hc
  split at hc
  · rcases List.mem_cons.mp hc with h | h
    · omega
    · have := put_dec_digit 20 _ c h
      omega
  · have := put_dec_digit 20 _ c hc
    omega

theorem cstring_append_nul (t : List Nat) (ht : ∀ c ∈ t, c ≠ 0) (r : List Nat) :
    cstring (t ++ 0 :: r) = t := by
  induction t with
  | nil => simp [cstring]
  | cons c cs ih =>
    have hc : c ≠ 0 := ht c (List.mem_cons_self c cs)
    have hcs : ∀ x ∈ cs, x ≠ 0 := fun x hx => ht x (List.mem_cons_of_mem c hx)
    have := ih hcs
    simp only [cstring] at this ⊢
    simp only [List.cons_append, List.takeWhile_cons, hc, ne_eq, not_false_eq_true,
      decide_True, if_true, this]

theorem to_int_range (r : Nat) : -2 ^ 31 ≤ to_int r ∧ to_int r < 2 ^ 31 := by
  unfold to_int
  have : r % 2 ^ 32 < 2 ^ 32 := Nat.mod_lt _ (by norm_num)
  split <;> omega

/-! ## Facts about single calls -/

theorem scnprintf_eq (v : Int) (hlo : -2 ^ 31 ≤ v) (hhi : v < 2 ^ 31) :
    scnprintf BUFFSIZE v = (format_d v, (format_d v).length) := by
  have hlen := (format_d_length v hlo hhi).2
  have htake : (format_d v).take (BUFFSIZE - 1) = format_d v :=
    List.take_of_length_le (by simp only [BUFFSIZE]; omega)
  simp only [scnprintf, htake]

theorem strlen_format_d (v : Int) : strlen (format_d v ++ [0]) = (format_d v).length := by
  unfold strlen
  rw [cstring_append_nul (format_d v) (format_d_nonzero v) []]

/-- Closed form of `fir_read`: the format-error return is never taken. -/
theorem fir_read_eq {σ : Type} (d : IoDev σ) (bits : Nat) (s : Driver σ) (writable : Nat) :
    fir_read d bits s writable =
      if copy_to_user writable
          ((format_d (to_int (d.ioread32 s.regs s.fir_curr_addr).1)).length + 1) ≠ 0 then
        ⟨-EINVAL, none, ⟨s.fir_curr_addr, (d.ioread32 s.regs s.fir_curr_addr).2⟩⟩
      else
        ⟨((format_d (to_int (d.ioread32 s.regs s.fir_curr_addr).1)).length : Nat),
          some (format_d (to_int (d.ioread32 s.regs s.fir_curr_addr).1) ++ [0]),
          ⟨read_cursor bits s.fir_curr_addr (to_int (d.ioread32 s.regs s.fir_curr_addr).1),
            (d.ioread32 s.regs s.fir_curr_addr).2⟩⟩ := by
  have hr := to_int_range (d.ioread32 s.regs s.fir_curr_addr).1
  have hsc := scnprintf_eq _ hr.1 hr.2
  have hlen := (format_d_length _ hr.1 hr.2).1
  have hne : (format_d (to_int (d.ioread32 s.regs s.fir_curr_addr).1)).length ≠ 0 := by omega
  unfold fir_read
  simp only [hsc, strlen_format_d, hne, if_false, read_cursor]
  split
  · rfl
  · split <;> rfl

theorem fir_write_input_eq (buf : List Nat) (len n : Nat) (input : List Nat)
    (h : fir_write_input buf len = .ok (n, input)) :
    n = write_len len ∧ input = buf.take (write_len len) ++ [0] := by
  have key : fir_write_input buf len =
      if copy_from_user buf (write_len len) ≠ 0 then .error (-EINVAL)
      else .ok (write_len len, buf.take (write_len len) ++ [0]) := rfl
  rw [key] at h
  by_cases hc : copy_from_user buf (write_len len) ≠ 0
  · rw [if_pos hc] at h
    cases h
  · rw [if_neg hc] at h
    simp only [Except.ok.injEq, Prod.mk.injEq] at h
    exact ⟨h.1.symm, h.2.symm⟩

/-- Closed form of a `fir_write` that reaches the store. -/
theorem fir_write_eq {σ : Type} (d : IoDev σ) (bits : Nat) (s : Driver σ) (buf : List Nat)
    (len : Nat) (v : Int) (h : write_value buf len = some v) :
    fir_write d bits s buf len =
      ⟨(write_len len : Nat),
        ⟨write_cursor bits s.fir_curr_addr, d.iowrite32 s.regs (to_u32 v) s.fir_curr_addr⟩⟩ := by
  unfold write_value at h
  unfold fir_write
  cases hi : fir_write_input buf len with
  | error e => simp [hi] at h
  | ok p =>
    obtain ⟨n, input⟩ := p
    have hn := (fir_write_input_eq buf len n input hi).1
    simp only [hi] at h ⊢
    cases hk : kstrtoint (cstring input) with
    | error e => simp [hk] at h
    | ok val =>
      simp only [hk, Option.some.injEq] at h ⊢
      subst h
      subst hn
      simp only [write_cursor]
      split <;> rfl

theorem write_cursor_le (bits c : Nat) : write_cursor bits c ≤ DRVMEMSIZE := by
  unfold write_cursor
  split <;> omega

theorem two_pow_bits (bits : Nat) (hb : 32 ≤ bits) : 2 ^ 32 ≤ 2 ^ bits :=
  Nat.pow_le_pow_right (by norm_num) hb

theorem write_cursor_eq (bits c : Nat) (hb : 32 ≤ bits) (hc : c ≤ 256) :
    write_cursor bits c = min (c + 1) 256 := by
  have h2 := two_pow_bits bits hb
  have hmod : (c + 1) % 2 ^ bits = c + 1 := Nat.mod_eq_of_lt (by omega)
  simp only [write_cursor, hmod, DRVMEMSIZE]
  split <;> omega

theorem write_value_format_d (v : Int) (hlo : -2 ^ 31 ≤ v) (hhi : v < 2 ^ 31) :
    write_value (format_d v) (format_d v).length = some v := by
  have hlen := (format_d_length v hlo hhi).2
  have hnot : ¬ (format_d v).length > BUFFSIZE := by simp only [BUFFSIZE]; omega
  have hcs := cstring_append_nul (format_d v) (format_d_nonzero v) []
  simp only [write_value, fir_write_input, hnot, if_false, copy_from_user, Nat.min_self,
    Nat.sub_self, ne_eq, not_true_eq_false, List.take_length, hcs,
    kstrtoint_format_d v hlo hhi]

/-! ## Facts about sequences of calls on the scripted region -/

theorem run_append {σ : Type} (d : IoDev σ) (bits : Nat) (a b : List Call) (s : Driver σ) :
    (run d bits s (a ++ b)).2 = (run d bits (run d bits s a).2 b).2 := by
  induction a generalizing s with
  | nil => rfl
  | cons c cs ih =>
    simp only [List.cons_append, run]
    exact ih _

theorem step_write_stub (bits c : Nat) (sc : List Nat) (lg : List Access) (buf : List Nat)
    (len : Nat) (v : Int) (h : write_value buf len = some v) :
    step stub bits ⟨c, ⟨sc, lg⟩⟩ (.write buf len) =
      (((write_len len : Nat) : Int),
        ⟨write_cursor bits c, ⟨sc, lg ++ [.store c (to_u32 v)]⟩⟩) := by
  simp only [step, fir_write_eq stub bits _ buf len v h]
  rfl

theorem step_read_stub (bits c : Nat) (sc : List Nat) (lg : List Access) (w : Nat)
    (hw : 12 ≤ w) :
    (step stub bits ⟨c, ⟨sc, lg⟩⟩ (.read w)).2 =
      ⟨read_cursor bits c (to_int (sc.headD 0 % 2 ^ 32)),
        ⟨sc.tail, lg ++ [.load c (sc.headD 0 % 2 ^ 32)]⟩⟩ := by
  have hr := to_int_range (sc.headD 0 % 2 ^ 32)
  have hlen := (format_d_length _ hr.1 hr.2).2
  have hcopy : copy_to_user w ((format_d (to_int (sc.headD 0 % 2 ^ 32))).length + 1) = 0 := by
    unfold copy_to_user
    omega
  simp only [step, fir_read_eq, stub, hcopy, ne_eq, not_true_eq_false, if_false]

/-- A run of writes that all reach the store, started at cursor `min j 256`:
the stores go to `min j 256`, `min (j+1) 256`, ... and no call fails. -/
theorem run_writes_stub (bits : Nat) (hb : 32 ≤ bits) (reqs : List (List Nat × Nat)) :
    ∀ (vals : List Int) (j : Nat) (sc : List Nat) (lg : List Access),
      reqs.map (fun r => write_value r.1 r.2) = vals.map some →
      run stub bits ⟨min j 256, ⟨sc, lg⟩⟩ (reqs.map (fun r => Call.write r.1 r.2)) =
        (reqs.map (fun r => ((write_len r.2 : Nat) : Int)),
          ⟨min (j + reqs.length) 256,
            ⟨sc, lg ++ List.zipWith (fun k v => Access.store (min k 256) (to_u32 v))
              (List.range' j vals.length) vals⟩⟩) := by
  induction reqs with
  | nil =>
    intro vals j sc lg h
    cases vals with
    | nil => simp [run]
    | cons v vs => simp at h
  | cons r rs ih =>
    intro vals j sc lg h
    cases vals with
    | nil => simp at h
    | cons v vs =>
      simp only [List.map_cons, List.cons.injEq] at h
      have hstep := step_write_stub bits (min j 256) sc lg r.1 r.2 v h.1
      have hcur : write_cursor bits (min j 256) = min (j + 1) 256 := by
        rw [write_cursor_eq bits _ hb (by omega)]
        omega
      rw [hcur] at hstep
      have hrec := ih vs (j + 1) sc (lg ++ [.store (min j 256) (to_u32 v)]) h.2
      simp only [List.map_cons, run, hstep, hrec, List.length_cons, List.range'_succ,
        List.zipWith_cons_cons, List.append_assoc, List.singleton_append]
      have : j + 1 + rs.length = j + (rs.length + 1) := by omega
      rw [this]

/-- A run of reads into user buffers with room for any `int` text, started
at cursor `c` and not going past 256: the loads go to `c`, `c+1`, ... and the
cursor ends at `c` plus the number of reads. -/
theorem run_reads_stub (bits : Nat) (hb : 32 ≤ bits) (ws : List Nat) :
    ∀ (c : Nat) (sc : List Nat) (lg : List Access), (∀ w ∈ ws, 12 ≤ w) →
      c + ws.length ≤ 256 →
      (run stub bits ⟨c, ⟨sc, lg⟩⟩ (ws.map Call.read)).2 =
        ⟨c + ws.length, ⟨sc.drop ws.length,
          lg ++ (List.range ws.length).map
            (fun j => Access.load (c + j) (sc.getD j 0 % 2 ^ 32))⟩⟩ := by
  induction ws with
  | nil =>
    intro c sc lg _ _
    simp [run]
  | cons w ws ih =>
    intro c sc lg hroom hc
    have hw : 12 ≤ w := hroom w (List.mem_cons_self w ws)
    have hws : ∀ x ∈ ws, 12 ≤ x := fun x hx => hroom x (List.mem_cons_of_mem w hx)
    simp only [List.length_cons] at hc
    have h2 := two_pow_bits bits hb
    have hstep := step_read_stub bits c sc lg w hw
    have hcur : read_cursor bits c (to_int (sc.headD 0 % 2 ^ 32)) = c + 1 := by
      have hne : ¬ (c = DRVMEMSIZE ∧ to_int (sc.headD 0 % 2 ^ 32) = 1) := by
        simp only [DRVMEMSIZE]
        omega
      simp only [read_cursor, hne, if_false]
      exact Nat.mod_eq_of_lt (by omega)
    rw [hcur] at hstep
    have hrec := ih (c + 1) sc.tail (lg ++ [.load c (sc.headD 0 % 2 ^ 32)]) hws (by omega)
    simp only [List.map_cons, run, hstep, hrec, List.length_cons]
    have hdrop : sc.tail.drop ws.length = sc.drop (ws.length + 1) := by
      cases sc <;> simp
    have hmap : (List.range (ws.length + 1)).map
          (fun j => Access.load (c + j) (sc.getD j 0 % 2 ^ 32)) =
        Access.load c (sc.headD 0 % 2 ^ 32) ::
          (List.range ws.length).map
            (fun j => Access.load (c + 1 + j) (sc.tail.getD j 0 % 2 ^ 32)) := by
      rw [List.range_succ_eq_map, List.map_cons, List.map_map]
      congr 1
      · cases sc <;> simp
      · apply List.map_congr_left
        intro j _
        cases sc with
        | nil => simp; omega
        | cons x xs => simp; omega
    rw [hdrop, hmap]
    simp only [List.append_assoc, List.singleton_append]
    congr 1
    omega

/-! ## Facts about the reference client -/

theorem sample_range (i : Nat) : 0 ≤ sample i ∧ sample i ≤ 37 := by
  unfold sample
  simp only []
  split <;> omega

theorem to_u32_one : to_u32 1 = 1 := by
  simp [to_u32]

theorem writes_as_requests (n : Nat) :
    (List.range n).map (fun i => fprintf_d (sample i)) ++ [fprintf_d 1] =
      (((List.range n).map sample ++ [1]).map
        (fun v => (format_d v, (format_d v).length))).map
          (fun (r : List Nat × Nat) => Call.write r.1 r.2) := by
  simp only [fprintf_d, List.map_append, List.map_map, Function.comp_def, List.map_cons,
    List.map_nil]

theorem zip_writes (n : Nat) (hn : n ≤ 256) :
    List.zipWith (fun k v => Access.store (min k 256) (to_u32 v))
        (List.range' 0 ((List.range n).map sample ++ [1]).length)
        ((List.range n).map sample ++ [1]) =
      (List.range n).map (fun i => Access.store i (to_u32 (sample i)))
        ++ [Access.store n 1] := by
  have hlen : ((List.range n).map sample ++ [1]).length = n + 1 := by
    simp only [List.length_append, List.length_map, List.length_range, List.length_singleton]
  have hlen2 : (List.range' 0 n).length = ((List.range n).map sample).length := by
    simp only [List.length_range', List.length_map, List.length_range]
  rw [hlen, List.range'_1_concat, List.zipWith_append _ _ _ _ _ hlen2,
    List.zipWith_map_right, ← List.range_eq_range', List.zipWith_same]
  congr 1
  · apply List.map_congr_left
    intro i hi
    have : i < n := List.mem_range.mp hi
    simp only [Access.store.injEq, and_true]
    omega
  · simp only [List.zipWith_cons_cons, List.zipWith_nil_right, to_u32_one, Nat.zero_add,
      List.cons.injEq, Access.store.injEq, and_true]
    omega

/-- State after an input loop of `n` samples and the start write. -/
theorem writes_stub (bits : Nat) (hb : 32 ≤ bits) (n : Nat) (hn : n ≤ 256) (sc : List Nat)
    (lg : List Access) :
    (run stub bits ⟨0, ⟨sc, lg⟩⟩
        ((List.range n).map (fun i => fprintf_d (sample i)) ++ [fprintf_d 1])).2 =
      ⟨min (n + 1) 256,
        ⟨sc, lg ++ ((List.range n).map (fun i => Access.store i (to_u32 (sample i)))
          ++ [Access.store n 1])⟩⟩ := by
  have hvals : (((List.range n).map sample ++ [1]).map
        (fun v => (format_d v, (format_d v).length))).map
          (fun (r : List Nat × Nat) => write_value r.1 r.2) =
      ((List.range n).map sample ++ [1]).map some := by
    rw [List.map_map]
    apply List.map_congr_left
    intro v hv
    have hr : 0 ≤ v ∧ v ≤ 37 := by
      rcases List.mem_append.mp hv with h | h
      · obtain ⟨i, _, rfl⟩ := List.mem_map.mp h
        exact sample_range i
      · simp only [List.mem_singleton] at h
        subst h
        omega
    exact write_value_format_d v (by omega) (by omega)
  have h := run_writes_stub bits hb _ _ 0 sc lg hvals
  have h0 : min 0 256 = 0 := by omega
  rw [h0, ← writes_as_requests, zip_writes n hn] at h
  rw [h]
  simp only [List.length_map, List.length_append, List.length_range, List.length_singleton,
    Nat.zero_add]

theorem main_writes_stub (bits : Nat) (hb : 32 ≤ bits) (sc : List Nat) (lg : List Access) :
    (run stub bits ⟨0, ⟨sc, lg⟩⟩ main_writes).2 =
      ⟨256, ⟨sc, lg ++ ((List.range NUM_SAMPLES).map
        (fun i => Access.store i (to_u32 (sample i))) ++ [Access.store 256 1])⟩⟩ :=
  writes_stub bits hb NUM_SAMPLES (Nat.le_refl 256) sc lg

theorem to_int_one : to_int 1 = 1 := by
  simp [to_int]

theorem to_int_zero : to_int 0 = 0 := by
  simp [to_int]

/-- A read at cursor 256 that loads 1, followed by 256 further reads, all
into user buffers with room for any `int` text: the first read wraps the
cursor to 0, the others load from 0..255 and leave the cursor at 256. -/
theorem reads_after_ready (bits : Nat) (hb : 32 ≤ bits) (outs : List Nat) (lg : List Access)
    (w0 : Nat) (hw0 : 12 ≤ w0) (ws : List Nat) (hws : ws.length = NUM_SAMPLES)
    (hroom : ∀ w ∈ ws, 12 ≤ w) :
    (step stub bits ⟨256, ⟨1 :: outs, lg⟩⟩ (.read w0)).2 =
        ⟨0, ⟨outs, lg ++ [Access.load 256 1]⟩⟩ ∧
      (run stub bits ⟨256, ⟨1 :: outs, lg⟩⟩ (Call.read w0 :: ws.map Call.read)).2 =
        ⟨256, ⟨outs.drop NUM_SAMPLES, lg ++ [Access.load 256 1]
          ++ (List.range NUM_SAMPLES).map
            (fun j => Access.load j (outs.getD j 0 % 2 ^ 32))⟩⟩ := by
  have h1 : (1 : Nat) % 2 ^ 32 = 1 := by norm_num
  have hcur : read_cursor bits 256 1 = 0 := by simp [read_cursor, DRVMEMSIZE]
  have hstep := step_read_stub bits 256 (1 :: outs) lg w0 hw0
  simp only [List.headD_cons, h1, to_int_one, List.tail_cons, hcur] at hstep
  refine ⟨hstep, ?_⟩
  have hreads := run_reads_stub bits hb ws 0 outs (lg ++ [Access.load 256 1]) hroom
    (by rw [hws]; exact Nat.le_refl 256)
  simp only [Nat.zero_add] at hreads
  rw [hws] at hreads
  simp only [run, hstep, hreads]
  rfl

/-! ## Facts about the access log of arbitrary call sequences -/

theorem fir_write_none {σ : Type} (d : IoDev σ) (bits : Nat) (s : Driver σ) (buf : List Nat)
    (len : Nat) (h : write_value buf len = none) :
    fir_write d bits s buf len = ⟨-EINVAL, s⟩ := by
  have key : fir_write_input buf len =
      if copy_from_user buf (write_len len) ≠ 0 then .error (-EINVAL)
      else .ok (write_len len, buf.take (write_len len) ++ [0]) := rfl
  unfold write_value at h
  unfold fir_write
  rw [key] at h ⊢
  by_cases hc : copy_from_user buf (write_len len) ≠ 0
  · simp only [if_pos hc]
  · simp only [if_neg hc] at h ⊢
    cases hk : kstrtoint (cstring (buf.take (write_len len) ++ [0])) with
    | error e => rfl
    | ok val => simp [hk] at h

theorem to_int_eq_one (r : Nat) (h : to_int (r % 2 ^ 32) = 1) : r % 2 ^ 32 = 1 := by
  unfold to_int at h
  have : r % 2 ^ 32 < 2 ^ 32 := Nat.mod_lt _ (by norm_num)
  have hmm : r % 2 ^ 32 % 2 ^ 32 = r % 2 ^ 32 := Nat.mod_mod _ _
  rw [hmm] at h
  split at h <;> omega

/-- Effect of one call on the log: accesses are appended, they are made at the
cursor, and the cursor stays within 0..256 unless the call loaded a word other
than 1 at offset 256. -/
theorem step_stub_log (bits : Nat) (s : Driver Stub) (call : Call) :
    ∃ ext, (step stub bits s call).2.regs.log = s.regs.log ++ ext ∧
      (∀ a ∈ ext, a.off = s.fir_curr_addr) ∧
      (s.fir_curr_addr ≤ 256 →
        (step stub bits s call).2.fir_curr_addr ≤ 256 ∨
          ∃ v, v ≠ 1 ∧ Access.load 256 v ∈ ext) := by
  obtain ⟨c, sc, lg⟩ := s
  cases call with
  | read w =>
    refine ⟨[.load c (sc.headD 0 % 2 ^ 32)], ?_, ?_, ?_⟩
    · simp only [step, fir_read_eq, stub]
      split <;> rfl
    · intro a ha
      simp only [List.mem_singleton] at ha
      subst ha
      rfl
    · intro hc
      have hc' : c ≤ 256 := hc
      simp only [step, fir_read_eq, stub]
      split
      · exact Or.inl hc
      · by_cases h256 : c = 256
        · by_cases hv : to_int (sc.headD 0 % 2 ^ 32) = 1
          · left
            rw [show read_cursor bits c (to_int (sc.headD 0 % 2 ^ 32)) = 0 from
              if_pos ⟨h256, hv⟩]
            exact Nat.zero_le _
          · right
            refine ⟨sc.headD 0 % 2 ^ 32, ?_, ?_⟩
            · intro h1
              apply hv
              rw [h1]
              exact to_int_one
            · subst h256
              simp
        · left
          have hne : ¬ (c = DRVMEMSIZE ∧ to_int (sc.headD 0 % 2 ^ 32) = 1) := by
            simp only [DRVMEMSIZE]
            omega
          simp only [read_cursor, hne, if_false]
          have := Nat.mod_le (c + 1) (2 ^ bits)
          omega
  | write buf len =>
    cases hv : write_value buf len with
    | none =>
      refine ⟨[], ?_, ?_, ?_⟩
      · simp [step, fir_write_none stub bits _ buf len hv]
      · intro a ha
        simp at ha
      · intro hc
        left
        simp only [step, fir_write_none stub bits _ buf len hv]
        exact hc
    | some v =>
      refine ⟨[.store c (to_u32 v)], ?_, ?_, ?_⟩
      · simp only [step, fir_write_eq stub bits _ buf len v hv]
        rfl
      · intro a ha
        simp only [List.mem_singleton] at ha
        subst ha
        rfl
      · intro _
        left
        simp only [step, fir_write_eq stub bits _ buf len v hv]
        exact write_cursor_le bits c

theorem run_stub_log_grows (bits : Nat) (calls : List Call) :
    ∀ s : Driver Stub, ∃ ext, (run stub bits s calls).2.regs.log = s.regs.log ++ ext := by
  induction calls with
  | nil => exact fun s => ⟨[], by simp [run]⟩
  | cons c cs ih =>
    intro s
    obtain ⟨e1, h1, _⟩ := step_stub_log bits s c
    obtain ⟨e2, h2⟩ := ih (step stub bits s c).2
    refine ⟨e1 ++ e2, ?_⟩
    simp only [run]
    rw [h2, h1, List.append_assoc]

/-- Invariant of a run started with the cursor in 0..256: as long as no load
at offset 256 returns a word other than 1, every access of the run is at an
offset in 0..256 and so is the cursor. -/
theorem run_stub_bounds (bits : Nat) (calls : List Call) :
    ∀ (s : Driver Stub) (ext : List Access), s.fir_curr_addr ≤ 256 →
      (run stub bits s calls).2.regs.log = s.regs.log ++ ext →
      (∀ v, Access.load 256 v ∈ ext → v = 1) →
      (∀ a ∈ ext, a.off ≤ 256) ∧ (run stub bits s calls).2.fir_curr_addr ≤ 256 := by
  induction calls with
  | nil =>
    intro s ext hc hlog _
    have hnil : ext = [] := by
      have h : s.regs.log ++ [] = s.regs.log ++ ext := by simpa [run] using hlog
      exact (List.append_cancel_left h).symm
    subst hnil
    exact ⟨fun a ha => by simp at ha, hc⟩
  | cons c cs ih =>
    intro s ext hc hlog hgood
    obtain ⟨e1, h1, hoff, hcur⟩ := step_stub_log bits s c
    obtain ⟨e2, h2⟩ := run_stub_log_grows bits cs (step stub bits s c).2
    have hrun : (run stub bits s (c :: cs)).2 = (run stub bits (step stub bits s c).2 cs).2 := rfl
    rw [hrun] at hlog ⊢
    have hext : ext = e1 ++ e2 := by
      have h : s.regs.log ++ ext = s.regs.log ++ (e1 ++ e2) := by
        rw [← hlog, h2, h1, List.append_assoc]
      exact List.append_cancel_left h
    subst hext
    have hc' : (step stub bits s c).2.fir_curr_addr ≤ 256 := by
      rcases hcur hc with h | ⟨v, hv1, hv2⟩
      · exact h
      · exact absurd (hgood v (List.mem_append_left _ hv2)) hv1
    obtain ⟨ih1, ih2⟩ := ih (step stub bits s c).2 e2 hc' h2
      (fun v hv => hgood v (List.mem_append_right _ hv))
    refine ⟨?_, ih2⟩
    intro a ha
    rcases List.mem_append.mp ha with h | h
    · rw [hoff a h]
      exact hc
    · exact ih1 a h

/-! ## Properties of the driver and of the client -/

/-- C1: starting from the cursor 0 set by `fir_probe`, a sequence of writes
that all parse is carried out without failure (every call returns its length);
the k-th write (counting from 0) stores its parsed value at offset `min k 256`,
and the cursor ends at `min n 256` after `n` writes. For one call: a write
that parses, made at a cursor `c ≤ 256`, stores at `c` and leaves the cursor
at `min (c + 1) 256`. -/
theorem write_cursor_saturation (bits : Nat) (hb : 32 ≤ bits) (script : List Nat)
    (reqs : List (List Nat × Nat)) (vals : List Int)
    (hvals : reqs.map (fun r => write_value r.1 r.2) = vals.map some) :
    run stub bits (fir_probe ⟨script, []⟩) (reqs.map (fun r => Call.write r.1 r.2)) =
        (reqs.map (fun r => ((write_len r.2 : Nat) : Int)),
          ⟨min reqs.length 256,
            ⟨script, List.zipWith (fun k v => Access.store (min k 256) (to_u32 v))
              (List.range vals.length) vals⟩⟩) ∧
      ∀ (c : Nat) (sc : List Nat) (lg : List Access) (buf : List Nat) (len : Nat) (v : Int),
        c ≤ 256 → write_value buf len = some v →
        fir_write stub bits ⟨c, ⟨sc, lg⟩⟩ buf len =
          ⟨((write_len len : Nat) : Int),
            ⟨min (c + 1) 256, ⟨sc, lg ++ [Access.store c (to_u32 v)]⟩⟩⟩ := by
  constructor
  · have h := run_writes_stub bits hb reqs vals 0 script [] hvals
    have h0 : min 0 256 = 0 := by omega
    rw [h0] at h
    simp only [fir_probe]
    rw [h, List.range_eq_range']
    simp only [Nat.zero_add, List.nil_append]
  · intro c sc lg buf len v hc hv
    rw [fir_write_eq stub bits _ buf len v hv, write_cursor_eq bits c hb hc]
    rfl

/-- Witness for C1: the texts "5" and "7" written after attach on a 32-bit
target. -/
theorem write_cursor_saturation_witness :
    run stub 32 (fir_probe ⟨[], []⟩)
        ([([53], 1), ([55], 1)].map (fun r => Call.write r.1 r.2)) =
        ([([53], 1), ([55], 1)].map (fun r => ((write_len r.2 : Nat) : Int)),
          ⟨min [([53], 1), ([55], 1)].length 256,
            ⟨[], List.zipWith (fun k v => Access.store (min k 256) (to_u32 v))
              (List.range [(5 : Int), 7].length) [5, 7]⟩⟩) ∧
      ∀ (c : Nat) (sc : List Nat) (lg : List Access) (buf : List Nat) (len : Nat) (v : Int),
        c ≤ 256 → write_value buf len = some v →
        fir_write stub 32 ⟨c, ⟨sc, lg⟩⟩ buf len =
          ⟨((write_len len : Nat) : Int),
            ⟨min (c + 1) 256, ⟨sc, lg ++ [Access.store c (to_u32 v)]⟩⟩⟩ :=
  write_cursor_saturation 32 (by decide) [] [([53], 1), ([55], 1)] [5, 7] (by rfl)

/-- C2: for every device, every cursor value `c` and the value `v` loaded
from offset `c`, a `fir_read` that succeeds hands the user the decimal text of
`v` with its terminator, returns the length of that text, and sets the cursor
to 0 if `c = 256` and `v = 1`, and to `c + 1` (in `unsigned long` arithmetic)
in every other case, `c = 256` with `v ≠ 1` and `c ≠ 256` with `v = 1`
included. -/
theorem fir_read_wraparound {σ : Type} (d : IoDev σ) (bits : Nat) (s : Driver σ)
    (writable : Nat) (hok : 0 ≤ (fir_read d bits s writable).ret) :
    (fir_read d bits s writable).user =
        some (format_d (to_int (d.ioread32 s.regs s.fir_curr_addr).1) ++ [0]) ∧
      (fir_read d bits s writable).ret =
        ((format_d (to_int (d.ioread32 s.regs s.fir_curr_addr).1)).length : Nat) ∧
      (fir_read d bits s writable).st.fir_curr_addr =
        (if s.fir_curr_addr = 256 ∧ to_int (d.ioread32 s.regs s.fir_curr_addr).1 = 1 then 0
          else (s.fir_curr_addr + 1) % 2 ^ bits) ∧
      (s.fir_curr_addr + 1 < 2 ^ bits →
        ¬ (s.fir_curr_addr = 256 ∧ to_int (d.ioread32 s.regs s.fir_curr_addr).1 = 1) →
        (fir_read d bits s writable).st.fir_curr_addr = s.fir_curr_addr + 1) := by
  rw [fir_read_eq] at hok ⊢
  by_cases hcopy : copy_to_user writable
      ((format_d (to_int (d.ioread32 s.regs s.fir_curr_addr).1)).length + 1) ≠ 0
  · rw [if_pos hcopy] at hok
    simp [EINVAL] at hok
  · rw [if_neg hcopy]
    refine ⟨rfl, rfl, rfl, ?_⟩
    intro hlt hne
    exact (if_neg hne).trans (Nat.mod_eq_of_lt hlt)

/-- Witness for C2: a read at cursor 256 that loads 1, with a 64-byte user
buffer. -/
theorem fir_read_wraparound_witness :
    (fir_read stub 32 ⟨256, ⟨[1], []⟩⟩ 64).user =
        some (format_d (to_int (stub.ioread32 ⟨[1], []⟩ 256).1) ++ [0]) ∧
      (fir_read stub 32 ⟨256, ⟨[1], []⟩⟩ 64).ret =
        ((format_d (to_int (stub.ioread32 ⟨[1], []⟩ 256).1)).length : Nat) ∧
      (fir_read stub 32 ⟨256, ⟨[1], []⟩⟩ 64).st.fir_curr_addr =
        (if (256 : Nat) = 256 ∧ to_int (stub.ioread32 ⟨[1], []⟩ 256).1 = 1 then 0
          else (256 + 1) % 2 ^ 32) ∧
      ((256 : Nat) + 1 < 2 ^ 32 →
        ¬ ((256 : Nat) = 256 ∧ to_int (stub.ioread32 ⟨[1], []⟩ 256).1 = 1) →
        (fir_read stub 32 ⟨256, ⟨[1], []⟩⟩ 64).st.fir_curr_addr = 256 + 1) :=
  fir_read_wraparound stub 32 ⟨256, ⟨[1], []⟩⟩ 64 (by decide)

/-- C3: the driver on the calls of a polling client whose first poll finds
the device not ready. After the client's 256 input writes and the start write
the cursor is 256; the first poll, a read that loads 0 from offset 256, moves
the cursor to 257; the following poll loads from offset 257, not from the
status offset 256, and leaves the cursor at 258. -/
theorem poll_leaves_status_offset :
    (run stub 64 (fir_probe ⟨[0, 1], []⟩) main_writes).2.fir_curr_addr = 256 ∧
      (fir_read stub 64 (run stub 64 (fir_probe ⟨[0, 1], []⟩) main_writes).2
        64).st.fir_curr_addr = 257 ∧
      (run stub 64 (fir_probe ⟨[0, 1], []⟩) (main_writes ++ [.read 64, .read 64])).2 =
        ⟨258, ⟨[], (run stub 64 (fir_probe ⟨[0, 1], []⟩) main_writes).2.regs.log
          ++ [Access.load 256 0, Access.load 257 1]⟩⟩ := by
  have hw := main_writes_stub 64 (by decide) [0, 1] []
  simp only [List.nil_append] at hw
  have h0 : (0 : Nat) % 2 ^ 32 = 0 := by norm_num
  have h1 : (1 : Nat) % 2 ^ 32 = 1 := by norm_num
  have hc1 : read_cursor 64 256 0 = 257 := by simp [read_cursor, DRVMEMSIZE]
  have hc2 : read_cursor 64 257 1 = 258 := by simp [read_cursor, DRVMEMSIZE]
  have hs1 := step_read_stub 64 256 [0, 1]
    ((List.range NUM_SAMPLES).map (fun i => Access.store i (to_u32 (sample i)))
      ++ [Access.store 256 1]) 64 (by decide)
  simp only [List.headD_cons, List.tail_cons, h0, to_int_zero, hc1] at hs1
  have hs2 := step_read_stub 64 257 [1]
    ((List.range NUM_SAMPLES).map (fun i => Access.store i (to_u32 (sample i)))
      ++ [Access.store 256 1] ++ [Access.load 256 0]) 64 (by decide)
  simp only [List.headD_cons, List.tail_cons, h1, to_int_one, hc2] at hs2
  rw [run_append]
  simp only [fir_probe]
  rw [hw]
  refine ⟨rfl, ?_, ?_⟩
  · exact congrArg Driver.fir_curr_addr hs1
  · simp only [run]
    rw [hs1, hs2]
    simp only [List.append_assoc, List.singleton_append, List.cons_append, List.nil_append]

/-- C4: 258 reads after attach on a device that returns 0. The reads load
from the offsets 0, 1, ..., 257: the load at offset 257 is performed, so not
every access is at an offset below 257. -/
theorem read_past_region :
    Access.load 257 0 ∈ (run stub 64 (fir_probe ⟨[], []⟩)
        ((List.replicate 256 64).map Call.read ++ [.read 64, .read 64])).2.regs.log ∧
      ¬ ∀ a ∈ (run stub 64 (fir_probe ⟨[], []⟩)
          ((List.replicate 256 64).map Call.read ++ [.read 64, .read 64])).2.regs.log,
        a.off < 257 := by
  have hroom : ∀ w ∈ List.replicate 256 64, 12 ≤ w := by
    intro w hw
    rw [List.eq_of_mem_replicate hw]
    decide
  have hlen : (List.replicate 256 64).length = 256 := List.length_replicate 256 64
  have hreads := run_reads_stub 64 (by decide) (List.replicate 256 64) 0 [] [] hroom
    (by rw [hlen])
  rw [hlen] at hreads
  have h0 : (0 : Nat) % 2 ^ 32 = 0 := by norm_num
  have hc1 : read_cursor 64 (0 + 256) 0 = 257 := by simp [read_cursor, DRVMEMSIZE]
  have hmem : Access.load 257 0 ∈ (run stub 64 (fir_probe ⟨[], []⟩)
      ((List.replicate 256 64).map Call.read ++ [.read 64, .read 64])).2.regs.log := by
    rw [run_append]
    simp only [fir_probe]
    rw [hreads]
    simp only [run, step_read_stub 64 _ _ _ 64 (by decide), List.drop_nil,
      List.headD_nil, List.tail_nil, h0, to_int_zero, hc1]
    simp only [List.mem_append, List.mem_singleton, or_true]
  refine ⟨hmem, ?_⟩
  intro h
  have := h _ hmem
  simp [Access.off] at this

/-- The offsets stay in bounds in every run that avoids the case above: for
every sequence of `fir_read` and `fir_write` calls issued after attach and
every sequence of words the device returns, if no load at offset 256 returns
a word other than 1, then every register load and store is made at an offset
`o` with `0 ≤ o < 257`, and the cursor ends in 0..256. -/
theorem offsets_in_bounds (bits : Nat) (script : List Nat) (calls : List Call)
    (h : ∀ v, Access.load 256 v ∈ (run stub bits (fir_probe ⟨script, []⟩) calls).2.regs.log →
      v = 1) :
    (∀ a ∈ (run stub bits (fir_probe ⟨script, []⟩) calls).2.regs.log, a.off < 257) ∧
      (run stub bits (fir_probe ⟨script, []⟩) calls).2.fir_curr_addr ≤ 256 := by
  have hb := run_stub_bounds bits calls (fir_probe ⟨script, []⟩)
    (run stub bits (fir_probe ⟨script, []⟩) calls).2.regs.log (Nat.zero_le _)
    (by simp [fir_probe]) h
  exact ⟨fun a ha => Nat.lt_succ_of_le (hb.1 a ha), hb.2⟩

/-- An instance of the bound with a load at offset 256: the client's writes
followed by a read that loads 1 from the status offset. -/
theorem offsets_in_bounds_ready :
    (∀ a ∈ (run stub 32 (fir_probe ⟨[1], []⟩) (main_writes ++ [.read 64])).2.regs.log,
        a.off < 257) ∧
      (run stub 32 (fir_probe ⟨[1], []⟩) (main_writes ++ [.read 64])).2.fir_curr_addr
        ≤ 256 := by
  apply offsets_in_bounds
  intro v hv
  have hw := main_writes_stub 32 (by decide) [1] []
  simp only [List.nil_append] at hw
  have h1 : (1 : Nat) % 2 ^ 32 = 1 := by norm_num
  have hs := step_read_stub 32 256 [1]
    ((List.range NUM_SAMPLES).map (fun i => Access.store i (to_u32 (sample i)))
      ++ [Access.store 256 1]) 64 (by decide)
  simp only [List.headD_cons, List.tail_cons, h1] at hs
  rw [run_append] at hv
  simp only [fir_probe] at hv
  rw [hw] at hv
  simp only [run] at hv
  rw [hs] at hv
  simp only [List.mem_append, List.mem_map, List.mem_singleton, Access.load.injEq,
    reduceCtorEq, and_false, exists_false, false_or, true_and] at hv
  exact hv

/-- C5: for every device, every cursor value and every user text that is
copied in but that `kstrtoint` rejects, whatever the error it reports,
`fir_write` returns `-EINVAL` and leaves the driver globals as they were: the
cursor is unchanged and the region is untouched (no store). -/
theorem fir_write_invalid_format {σ : Type} (d : IoDev σ) (bits : Nat) (s : Driver σ)
    (buf : List Nat) (len n : Nat) (input : List Nat) (e : Int)
    (hcopy : fir_write_input buf len = .ok (n, input))
    (hparse : kstrtoint (cstring input) = .error e) :
    fir_write d bits s buf len = ⟨-EINVAL, s⟩ := by
  unfold fir_write
  simp only [hcopy, hparse]

/-- Witness for C5: the text "abc" written at cursor 7 of the scripted
region. -/
theorem fir_write_invalid_format_witness :
    fir_write stub 32 ⟨7, ⟨[], []⟩⟩ [97, 98, 99] 3 = ⟨-EINVAL, ⟨7, ⟨[], []⟩⟩⟩ :=
  fir_write_invalid_format stub 32 ⟨7, ⟨[], []⟩⟩ [97, 98, 99] 3 3 [97, 98, 99, 0] (-22)
    (by rfl) (by rfl)

/-- Texts the parser rejects: non-numeric text, empty text, a magnitude
outside the `int` range, digits followed by other characters. -/
theorem kstrtoint_rejects :
    kstrtoint [97, 98, 99] = .error (-22) ∧ kstrtoint [] = .error (-22) ∧
      kstrtoint [50, 49, 52, 55, 52, 56, 51, 54, 52, 56] = .error (-34) ∧
      kstrtoint [49, 50, 32, 51] = .error (-22) := by
  refine ⟨?_, ?_, ?_, ?_⟩ <;> rfl

/-- C6: a write of exactly 64 bytes. The length check lets it through, 64
bytes are copied into the 64-byte buffer and the terminator is stored at index
64, so 65 bytes are written from `input[0]` on. -/
theorem fir_write_terminator_past_buffer :
    fir_write_input (List.replicate 64 49) 64 = .ok (64, List.replicate 64 49 ++ [0]) ∧
      BUFFSIZE < (List.replicate 64 49 ++ [0]).length ∧
      (List.replicate 64 49 ++ [0]).get? BUFFSIZE = some 0 := by
  refine ⟨?_, ?_, ?_⟩
  · rfl
  · decide
  · rfl

/-- For every length other than 64 the copy is at most 63 bytes and the
terminator lies inside the buffer. -/
theorem fir_write_input_fits (buf : List Nat) (len n : Nat) (input : List Nat)
    (hlen : len ≠ BUFFSIZE) (h : fir_write_input buf len = .ok (n, input)) :
    n ≤ 63 ∧ input.length ≤ BUFFSIZE := by
  obtain ⟨hn, hin⟩ := fir_write_input_eq buf len n input h
  subst hn hin
  have hw : write_len len ≤ 63 := by
    unfold write_len
    simp only [BUFFSIZE] at hlen ⊢
    split <;> omega
  refine ⟨hw, ?_⟩
  simp only [List.length_append, List.length_take, List.length_singleton, BUFFSIZE]
  omega

/-- C7, refuted as stated: after the calls of the reference cycle (the
client's 256 input writes, the start write of 1, a read that loads the ready
value 1, then 256 output reads) the cursor is 256, not 0. -/
theorem cycle_does_not_end_at_zero :
    (run stub 64 (fir_probe ⟨[1], []⟩)
        (main_writes ++ Call.read 64 :: (List.replicate 256 64).map Call.read)).2.fir_curr_addr
        = 256 ∧
      (run stub 64 (fir_probe ⟨[1], []⟩)
        (main_writes ++ Call.read 64 :: (List.replicate 256 64).map Call.read)).2.fir_curr_addr
        ≠ 0 := by
  have hw := main_writes_stub 64 (by decide) [1] []
  simp only [List.nil_append] at hw
  have hr := (reads_after_ready 64 (by decide) [] ((List.range NUM_SAMPLES).map
    (fun i => Access.store i (to_u32 (sample i))) ++ [Access.store 256 1]) 64 (by decide)
    (List.replicate 256 64) (List.length_replicate 256 64)
    (fun w hw => by rw [List.eq_of_mem_replicate hw]; decide)).2
  rw [run_append]
  simp only [fir_probe]
  rw [hw, hr]
  exact ⟨rfl, by decide⟩

/-- C7, amended: starting from cursor 0, over the calls of the reference
cycle whose first poll loads the ready value 1 (256 writes that parse, a
start write of 1, the read that loads 1, then 256 further reads, every read
into a user buffer with room for any `int` text), the cursor is 256 after the
start write, wraps to 0 at the ready read, and is 256 again after the 256
output reads. -/
theorem cycle_cursor (bits : Nat) (hb : 32 ≤ bits) (reqs : List (List Nat × Nat))
    (vals : List Int) (hlen : reqs.length = NUM_SAMPLES)
    (hvals : reqs.map (fun r => write_value r.1 r.2) = vals.map some)
    (sbuf : List Nat) (slen : Nat) (hstart : write_value sbuf slen = some 1)
    (outs : List Nat) (w0 : Nat) (hw0 : 12 ≤ w0) (ws : List Nat)
    (hws : ws.length = NUM_SAMPLES) (hroom : ∀ w ∈ ws, 12 ≤ w) :
    (run stub bits (fir_probe ⟨1 :: outs, []⟩)
        (reqs.map (fun r => Call.write r.1 r.2) ++ [Call.write sbuf slen])).2.fir_curr_addr
        = 256 ∧
      (run stub bits (fir_probe ⟨1 :: outs, []⟩)
        ((reqs.map (fun r => Call.write r.1 r.2) ++ [Call.write sbuf slen])
          ++ [Call.read w0])).2.fir_curr_addr = 0 ∧
      (run stub bits (fir_probe ⟨1 :: outs, []⟩)
        ((reqs.map (fun r => Call.write r.1 r.2) ++ [Call.write sbuf slen])
          ++ Call.read w0 :: ws.map Call.read)).2.fir_curr_addr = 256 := by
  have hcalls : reqs.map (fun r => Call.write r.1 r.2) ++ [Call.write sbuf slen] =
      (reqs ++ [(sbuf, slen)]).map (fun r => Call.write r.1 r.2) := by
    simp only [List.map_append, List.map_cons, List.map_nil]
  have hvals' : (reqs ++ [(sbuf, slen)]).map (fun r => write_value r.1 r.2) =
      (vals ++ [1]).map some := by
    simp only [List.map_append, List.map_cons, List.map_nil, hvals, hstart]
  have hwr := run_writes_stub bits hb (reqs ++ [(sbuf, slen)]) (vals ++ [1]) 0 (1 :: outs) []
    hvals'
  have h0 : min 0 256 = 0 := by omega
  have hN : NUM_SAMPLES = 256 := rfl
  have hcur : min (0 + (reqs ++ [(sbuf, slen)]).length) 256 = 256 := by
    simp only [List.length_append, List.length_singleton, hlen, hN]
    omega
  rw [h0, hcur, ← hcalls] at hwr
  have hst := congrArg Prod.snd hwr
  simp only [List.nil_append] at hst
  have hr := reads_after_ready bits hb outs
    (List.zipWith (fun k v => Access.store (min k 256) (to_u32 v))
      (List.range' 0 (vals ++ [1]).length) (vals ++ [1])) w0 hw0 ws hws hroom
  generalize reqs.map (fun r => Call.write r.1 r.2) ++ [Call.write sbuf slen] = W at hst ⊢
  simp only [fir_probe, run_append]
  rw [hst]
  refine ⟨rfl, ?_, ?_⟩
  · simp only [run]
    rw [hr.1]
  · rw [hr.2]

/-- Witness for C7: a 32-bit target, 256 writes of "5", the start write "1",
a device returning 1 and then two negative words, 64-byte user buffers. -/
theorem cycle_cursor_witness :
    (run stub 32 (fir_probe ⟨1 :: [4294967291, 4294967290], []⟩)
        ((List.replicate 256 ([53], 1)).map (fun r => Call.write r.1 r.2)
          ++ [Call.write [49] 1])).2.fir_curr_addr = 256 ∧
      (run stub 32 (fir_probe ⟨1 :: [4294967291, 4294967290], []⟩)
        (((List.replicate 256 ([53], 1)).map (fun r => Call.write r.1 r.2)
          ++ [Call.write [49] 1]) ++ [Call.read 64])).2.fir_curr_addr = 0 ∧
      (run stub 32 (fir_probe ⟨1 :: [4294967291, 4294967290], []⟩)
        (((List.replicate 256 ([53], 1)).map (fun r => Call.write r.1 r.2)
          ++ [Call.write [49] 1])
          ++ Call.read 64 :: (List.replicate 256 64).map Call.read)).2.fir_curr_addr = 256 :=
  cycle_cursor 32 (by decide) (List.replicate 256 ([53], 1)) (List.replicate 256 5)
    (List.length_replicate 256 _)
    (by rw [List.map_replicate, List.map_replicate]; rfl)
    [49] 1 (by rfl) [4294967291, 4294967290] 64 (by decide) (List.replicate 256 64)
    (List.length_replicate 256 64)
    (fun w hw => by rw [List.eq_of_mem_replicate hw]; decide)

/-- C8: starting from cursor 0 with a device whose first loaded word is 1,
the register accesses made by the client's 256 input writes and start write,
followed by the read of the ready poll and 256 output reads (every read into
a user buffer with room for any `int` text), are, in order: for i = 0..255 a
store of the i-th sample at offset i, a store of 1 at offset 256, a load from
offset 256, and for j = 0..255 a load from offset j. Whatever calls follow,
these stay the first accesses. The i-th sample is `(i%38)*16/19 + i%5`,
replaced by 37 minus that when `i%38 ≥ 19`. -/
theorem reference_cycle_offsets (bits : Nat) (hb : 32 ≤ bits) (outs : List Nat) (w0 : Nat)
    (hw0 : 12 ≤ w0) (ws : List Nat) (hws : ws.length = NUM_SAMPLES)
    (hroom : ∀ w ∈ ws, 12 ≤ w) :
    (run stub bits (fir_probe ⟨1 :: outs, []⟩)
        (main_writes ++ Call.read w0 :: ws.map Call.read)).2.regs.log =
        (List.range NUM_SAMPLES).map (fun i => Access.store i (to_u32 (sample i)))
          ++ [Access.store 256 1] ++ [Access.load 256 1]
          ++ (List.range NUM_SAMPLES).map (fun j => Access.load j (outs.getD j 0 % 2 ^ 32)) ∧
      (∀ more : List Call, ∃ ext,
        (run stub bits (fir_probe ⟨1 :: outs, []⟩)
          ((main_writes ++ Call.read w0 :: ws.map Call.read) ++ more)).2.regs.log =
          ((List.range NUM_SAMPLES).map (fun i => Access.store i (to_u32 (sample i)))
            ++ [Access.store 256 1] ++ [Access.load 256 1]
            ++ (List.range NUM_SAMPLES).map
              (fun j => Access.load j (outs.getD j 0 % 2 ^ 32))) ++ ext) ∧
      ∀ i : Nat, to_u32 (sample i) =
        if i % 38 ≥ 19 then 37 - (i % 38 * 16 / 19 + i % 5) else i % 38 * 16 / 19 + i % 5 := by
  have hw := main_writes_stub bits hb (1 :: outs) []
  simp only [List.nil_append] at hw
  have hr := (reads_after_ready bits hb outs ((List.range NUM_SAMPLES).map
    (fun i => Access.store i (to_u32 (sample i))) ++ [Access.store 256 1]) w0 hw0 ws hws
    hroom).2
  have hlog : (run stub bits (fir_probe ⟨1 :: outs, []⟩)
      (main_writes ++ Call.read w0 :: ws.map Call.read)).2.regs.log =
      (List.range NUM_SAMPLES).map (fun i => Access.store i (to_u32 (sample i)))
        ++ [Access.store 256 1] ++ [Access.load 256 1]
        ++ (List.range NUM_SAMPLES).map
          (fun j => Access.load j (outs.getD j 0 % 2 ^ 32)) := by
    rw [run_append]
    simp only [fir_probe]
    rw [hw, hr]
  refine ⟨hlog, ?_, ?_⟩
  · intro more
    obtain ⟨ext, hext⟩ := run_stub_log_grows bits more
      (run stub bits (fir_probe ⟨1 :: outs, []⟩)
        (main_writes ++ Call.read w0 :: ws.map Call.read)).2
    refine ⟨ext, ?_⟩
    rw [run_append, hext, hlog]
  · intro i
    unfold to_u32 sample
    simp only []
    split <;> omega

/-- Witness for C8: a 32-bit target, a device returning 1 and then two
negative words, reads into 4096-byte buffers. -/
theorem reference_cycle_offsets_witness :
    (run stub 32 (fir_probe ⟨1 :: [4294967291, 4294967290], []⟩)
        (main_writes ++ Call.read 4096 :: (List.replicate 256 4096).map Call.read)).2.regs.log =
        (List.range NUM_SAMPLES).map (fun i => Access.store i (to_u32 (sample i)))
          ++ [Access.store 256 1] ++ [Access.load 256 1]
          ++ (List.range NUM_SAMPLES).map
            (fun j => Access.load j ([4294967291, 4294967290].getD j 0 % 2 ^ 32)) ∧
      (∀ more : List Call, ∃ ext,
        (run stub 32 (fir_probe ⟨1 :: [4294967291, 4294967290], []⟩)
          ((main_writes ++ Call.read 4096 :: (List.replicate 256 4096).map Call.read)
            ++ more)).2.regs.log =
          ((List.range NUM_SAMPLES).map (fun i => Access.store i (to_u32 (sample i)))
            ++ [Access.store 256 1] ++ [Access.load 256 1]
            ++ (List.range NUM_SAMPLES).map
              (fun j => Access.load j ([4294967291, 4294967290].getD j 0 % 2 ^ 32))) ++ ext) ∧
      ∀ i : Nat, to_u32 (sample i) =
        if i % 38 ≥ 19 then 37 - (i % 38 * 16 / 19 + i % 5) else i % 38 * 16 / 19 + i % 5 :=
  reference_cycle_offsets 32 (by decide) [4294967291, 4294967290] 4096 (by decide)
    (List.replicate 256 4096) (List.length_replicate 256 4096)
    (fun w hw => by rw [List.eq_of_mem_replicate hw]; decide)

/-- C9: for every signed 32-bit value `v`, the text `fir_read` formats for
`v` in its 64-byte buffer is the full decimal text (not truncated), it is
non-empty and at most 11 characters long, `kstrtoint` accepts it and yields
`v`, and written back through `fir_write` it stores `v`; for every loaded
word the character count is non-zero, so `fir_read` never takes its
format-error return. -/
theorem text_round_trip (v : Int) (hlo : -2 ^ 31 ≤ v) (hhi : v < 2 ^ 31) :
    scnprintf BUFFSIZE v = (format_d v, (format_d v).length) ∧
      (scnprintf BUFFSIZE v).2 ≠ 0 ∧
      (scnprintf BUFFSIZE v).1.length ≤ 11 ∧
      kstrtoint (cstring ((scnprintf BUFFSIZE v).1 ++ [0])) = .ok v ∧
      write_value (scnprintf BUFFSIZE v).1 (scnprintf BUFFSIZE v).2 = some v ∧
      ∀ r : Nat, (scnprintf BUFFSIZE (to_int r)).2 ≠ 0 := by
  have hsc := scnprintf_eq v hlo hhi
  have hlen := format_d_length v hlo hhi
  refine ⟨hsc, ?_, ?_, ?_, ?_, ?_⟩
  · rw [hsc]
    show (format_d v).length ≠ 0
    omega
  · rw [hsc]
    exact hlen.2
  · rw [hsc]
    show kstrtoint (cstring (format_d v ++ [0])) = .ok v
    rw [cstring_append_nul (format_d v) (format_d_nonzero v) []]
    exact kstrtoint_format_d v hlo hhi
  · rw [hsc]
    exact write_value_format_d v hlo hhi
  · intro r
    have hr := to_int_range r
    rw [scnprintf_eq _ hr.1 hr.2]
    have := (format_d_length _ hr.1 hr.2).1
    show (format_d (to_int r)).length ≠ 0
    omega

/-- Witness for C9: the most negative `int`. -/
theorem text_round_trip_witness :
    scnprintf BUFFSIZE (-2147483648) =
        (format_d (-2147483648), (format_d (-2147483648)).length) ∧
      (scnprintf BUFFSIZE (-2147483648)).2 ≠ 0 ∧
      (scnprintf BUFFSIZE (-2147483648)).1.length ≤ 11 ∧
      kstrtoint (cstring ((scnprintf BUFFSIZE (-2147483648)).1 ++ [0])) = .ok (-2147483648) ∧
      write_value (scnprintf BUFFSIZE (-2147483648)).1 (scnprintf BUFFSIZE (-2147483648)).2 =
        some (-2147483648) ∧
      ∀ r : Nat, (scnprintf BUFFSIZE (to_int r)).2 ≠ 0 :=
  text_round_trip (-2147483648) (by norm_num) (by norm_num)

/-- C10: over byte-addressed little-endian memory, a `fir_write` at cursor
`c` stores the four bytes of its value at the byte offsets `c .. c+3` and
changes no other byte; after a write of `v` at cursor `c` and a write of `w`
at cursor `c + 1`, the word loaded at offset `c` has the lowest byte of `v` as
its lowest byte and the lower three bytes of `w` as its upper three bytes.
When `c < 256` the second write is the one the next call makes, because the
first leaves the cursor at `c + 1`. -/
theorem cursor_is_byte_offset (bits c : Nat) (mem : Nat → Nat) (buf1 : List Nat) (len1 : Nat)
    (buf2 : List Nat) (len2 : Nat) (v w : Int)
    (h1 : write_value buf1 len1 = some v) (h2 : write_value buf2 len2 = some w) :
    (fir_write ram bits ⟨c, mem⟩ buf1 len1).st.regs c = to_u32 v % 256 ∧
      (fir_write ram bits ⟨c, mem⟩ buf1 len1).st.regs (c + 1) = to_u32 v / 256 % 256 ∧
      (fir_write ram bits ⟨c, mem⟩ buf1 len1).st.regs (c + 2) = to_u32 v / 65536 % 256 ∧
      (fir_write ram bits ⟨c, mem⟩ buf1 len1).st.regs (c + 3) = to_u32 v / 16777216 % 256 ∧
      (∀ x, x < c ∨ c + 4 ≤ x → (fir_write ram bits ⟨c, mem⟩ buf1 len1).st.regs x = mem x) ∧
      (ram.ioread32
          (fir_write ram bits ⟨c + 1, (fir_write ram bits ⟨c, mem⟩ buf1 len1).st.regs⟩
            buf2 len2).st.regs c).1 =
        to_u32 v % 256 + 256 * (to_u32 w % 2 ^ 24) ∧
      (32 ≤ bits → c < 256 →
        (fir_write ram bits ⟨c, mem⟩ buf1 len1).st.fir_curr_addr = c + 1) := by
  rw [fir_write_eq ram bits _ buf2 len2 w h2, fir_write_eq ram bits _ buf1 len1 v h1]
  simp only [ram]
  have e1 : c + 1 ≠ c := by omega
  have e2 : c + 2 ≠ c := by omega
  have e3 : c + 3 ≠ c := by omega
  have e4 : c + 2 ≠ c + 1 := by omega
  have e5 : c + 3 ≠ c + 1 := by omega
  have e6 : c + 3 ≠ c + 2 := by omega
  have e7 : c ≠ c + 1 := by omega
  have e8 : c + 1 + 1 = c + 2 := by omega
  have e9 : c + 1 + 2 = c + 3 := by omega
  have e10 : c ≠ c + 2 := by omega
  have e11 : c ≠ c + 3 := by omega
  have e12 : c ≠ c + 1 + 3 := by omega
  refine ⟨?_, ?_, ?_, ?_, ?_, ?_, ?_⟩
  · simp
  · simp
  · simp
  · simp
  · intro x hx
    have a1 : x ≠ c := by omega
    have a2 : x ≠ c + 1 := by omega
    have a3 : x ≠ c + 2 := by omega
    have a4 : x ≠ c + 3 := by omega
    simp [a1, a2, a3, a4]
  · simp only [e1, e2, e3, e4, e5, e6, e7, e8, e9, e10, e11, e12, if_true, if_false]
    simp only [Nat.add_right_cancel_iff, Nat.add_eq_left, OfNat.ofNat_ne_zero,
      OfNat.ofNat_ne_one, if_false, if_true, Nat.mod_mod]
    omega
  · intro hb hc
    rw [write_cursor_eq bits c hb (by omega)]
    omega

/-- Witness for C10: "258" written at cursor 4 and "-1" at cursor 5 over a
zeroed memory. -/
theorem cursor_is_byte_offset_witness :
    (fir_write ram 32 ⟨4, fun _ => 0⟩ [50, 53, 56] 3).st.regs 4 = to_u32 258 % 256 ∧
      (fir_write ram 32 ⟨4, fun _ => 0⟩ [50, 53, 56] 3).st.regs (4 + 1)
        = to_u32 258 / 256 % 256 ∧
      (fir_write ram 32 ⟨4, fun _ => 0⟩ [50, 53, 56] 3).st.regs (4 + 2)
        = to_u32 258 / 65536 % 256 ∧
      (fir_write ram 32 ⟨4, fun _ => 0⟩ [50, 53, 56] 3).st.regs (4 + 3)
        = to_u32 258 / 16777216 % 256 ∧
      (∀ x, x < 4 ∨ 4 + 4 ≤ x →
        (fir_write ram 32 ⟨4, fun _ => 0⟩ [50, 53, 56] 3).st.regs x = (fun _ => 0) x) ∧
      (ram.ioread32
          (fir_write ram 32 ⟨4 + 1, (fir_write ram 32 ⟨4, fun _ => 0⟩ [50, 53, 56] 3).st.regs⟩
            [45, 49] 2).st.regs 4).1 =
        to_u32 258 % 256 + 256 * (to_u32 (-1) % 2 ^ 24) ∧
      (32 ≤ 32 → 4 < 256 →
        (fir_write ram 32 ⟨4, fun _ => 0⟩ [50, 53, 56] 3).st.fir_curr_addr = 4 + 1) :=
  cursor_is_byte_offset 32 4 (fun _ => 0) [50, 53, 56] 3 [45, 49] 2 258 (-1) (by rfl) (by rfl)

end Fir
